import Mathlib

/-!
Verification of the `short` URL-shortening repository.

The storage layer (`short/db.py`) is modelled from the specification:
its data model is a table of entries keyed by a `short` string, and its
operations are `save_long_url`, `get_short_of_long`, `get_long_from_short`
built on a conditional-insert primitive.  The migration script
(`script/migrate_to_table_without_long_key.py`) and the test helper
`MockLimit` (`tests/test_db.py`) are embedded from their source.
-/

namespace Short

/-- Modelled from the spec (§3 Data Model): a mapping entry, the sole
persisted entity, with a `short` key and a `long_url` value. -/
structure Entry where
  short : String
  long_url : String
deriving Repr, DecidableEq

/-- Modelled from the spec (§6): the backing key-value table, as the list
of its entries (scan order). -/
abbrev Table := List Entry

/-- Result of the store's conditional write. -/
inductive InsertResult where
  | success
  | already_exists
deriving Repr, DecidableEq

/-- Whether the table holds an entry with the given `short` primary key. -/
def hasShort (t : Table) (s : String) : Bool :=
  List.any t (fun e => e.short == s)

/-- Modelled from the spec (§4.1, and the migration script's
`put_item(..., ConditionExpression=Attr("short").not_exists())`): atomic
conditional insert, succeeding only when no entry with the same `short`
primary key exists. -/
def conditional_insert (t : Table) (e : Entry) : Table × InsertResult :=
  if hasShort t e.short then (t, InsertResult.already_exists)
  else (t ++ [e], InsertResult.success)

/-- Modelled from the spec (§4.1): strongly-consistent point lookup by
primary key. -/
def find_by_key (t : Table) (s : String) : Option Entry :=
  List.find? (fun e => e.short == s) t

/-- Modelled from the spec (§4.1): lookup by the non-key attribute
`long_url`, a full-table scan with an equality filter. -/
def find_by_secondary (t : Table) (l : String) : Option Entry :=
  List.find? (fun e => e.long_url == l) t

/-- Modelled from the spec (§4.2 step 1, I3): normalization strips
trailing newline/whitespace characters from the input URL. -/
def normalize (s : String) : String :=
  String.mk (List.reverse (List.dropWhile Char.isWhitespace (List.reverse s.data)))

/-- Alphanumeric alphabet the candidate keys are drawn from. -/
def alphanum_chars : List Char :=
  "abcdefghijklmnopqrstuvwxyzABCDEFGHIJKLMNOPQRSTUVWXYZ0123456789".data

/-- Pick the `i % 62`-th character of the alphanumeric alphabet. -/
def pick (i : Nat) : Char :=
  List.getD alphanum_chars (i % 62) 'a'

/-- Modelled from the spec (§4.2 step 3a; `short/db.py`'s `random_string`
is not under `src/`): a fixed-length 4-character string drawn from an
alphanumeric alphabet; the randomness source is abstracted as the `seed`
argument. -/
def random_string (seed : Nat) : String :=
  String.mk [pick seed, pick (seed / 62), pick (seed / 3844), pick (seed / 238328)]

/-- State threaded through the engine: the table plus the number of calls
made so far to the injectable random-string generator (the generator is
modelled as a function of its global call count, which lets deterministic
test doubles such as `MockLimit` be expressed). -/
structure EngineState where
  table : Table
  genCount : Nat
deriving DecidableEq

/-- Modelled from the spec (§4.2 step 3): the generate-and-insert loop of
`save_long_url`.  Generates a candidate from the injected generator,
attempts the conditional insert, and on `already_exists` retries with a
fresh candidate.  `fuel` is the retry ceiling (spec §4.2 step 3c); when it
is exhausted the loop fails with `none` (`KeySpaceExhausted`). -/
def saveLoop (gen : Nat → String) : Nat → EngineState → String → Option Entry × EngineState
  | 0, st, _ => (none, st)
  | fuel + 1, st, nrm =>
    let cand := gen st.genCount
    let st1 : EngineState := ⟨st.table, st.genCount + 1⟩
    let e : Entry := ⟨cand, nrm⟩
    match conditional_insert st1.table e with
    | (t, InsertResult.success) => (some e, ⟨t, st1.genCount⟩)
    | (_, InsertResult.already_exists) => saveLoop gen fuel st1 nrm

/-- Modelled from the spec (§4.2; `short/db.py` is not under `src/`):
`save_long_url` normalizes the raw URL, returns an existing mapping
unchanged when one is found, and otherwise runs the generate-and-insert
loop. -/
def save_long_url (gen : Nat → String) (fuel : Nat) (st : EngineState) (raw : String) :
    Option Entry × EngineState :=
  let nrm := normalize raw
  match find_by_secondary st.table nrm with
  | some e => (some e, st)
  | none => saveLoop gen fuel st nrm

/-- Modelled from the spec (§4.2): normalize the input, then delegate to
the secondary lookup; returns the `short` key or a not-found signal. -/
def get_short_of_long (t : Table) (l : String) : Option String :=
  Option.map Entry.short (find_by_secondary t (normalize l))

/-- Modelled from the spec (§4.2): delegate to the point lookup by key;
returns the `long_url` or a not-found signal. -/
def get_long_from_short (t : Table) (s : String) : Option String :=
  Option.map Entry.long_url (find_by_key t s)

/-- Run a sequence of `save_long_url` calls, threading the engine state
and collecting each call's response. -/
def runSaves (gen : Nat → String) (fuel : Nat) : EngineState → List String → List (Option Entry) × EngineState
  | st, [] => ([], st)
  | st, u :: us =>
    let (r, st1) := save_long_url gen fuel st u
    let (rs, st2) := runSaves gen fuel st1 us
    (r :: rs, st2)

/-- The initial engine state: empty table, generator not yet called. -/
def initState : EngineState := ⟨([] : List Entry), 0⟩

/-- The schema-level invariant: `short` is the sole primary key, so no
two entries share a `short` value. -/
def UniqueShorts (t : Table) : Prop :=
  List.Nodup (List.map Entry.short t)

instance (t : Table) : Decidable (UniqueShorts t) :=
  inferInstanceAs (Decidable (List.Nodup (List.map Entry.short t)))

/-- A valid short key: exactly 4 characters, all alphanumeric. -/
def validShort (s : String) : Bool :=
  s.data.length == 4 && List.all s.data Char.isAlphanum

/-- Whether a string ends in a newline character. -/
def hasTrailingNewline (s : String) : Bool :=
  List.getLast? s.data == some '\x0a'

/-- Embedded from `script/migrate_to_table_without_long_key.py` lines
59-64: the copy loop writes each scanned item into the destination with
`put_item(Item=item, ConditionExpression=Attr("short").not_exists())`.
A failed condition raises an uncaught exception, modelled as `Except.error`
carrying the offending item; items after it are never written. -/
def migrate_items : List Entry → Table → Except Entry Table
  | [], dest => Except.ok dest
  | item :: rest, dest =>
    match conditional_insert dest item with
    | (dest1, InsertResult.success) => migrate_items rest dest1
    | (_, InsertResult.already_exists) => Except.error item

/-- Embedded from the active part of
`script/migrate_to_table_without_long_key.py`: scan the intermediate
table, create the fixed single-key table of the original name (fresh,
hence empty), and copy every scanned item via conditional insert.  The
result pairs the migration outcome with the intermediate table after the
run (the script never deletes it; cleanup is left manual).  -/
def run_migration (intermediate : Table) : Except Entry Table × Table :=
  (migrate_items intermediate ([] : List Entry), intermediate)

/-- Embedded from `tests/test_db.py` lines 102-106: the `MockLimit` test
helper's instance state. -/
structure MockLimit (α : Type) where
  mock_count_max : Nat
  mock_count : Nat
  mockreturn : α
  fallback_func : Unit → α

/-- Embedded from `tests/test_db.py` lines 108-117: `mocking_func`
returns `mockreturn` (incrementing `mock_count`) while the count is below
`mock_count_max`, and afterwards returns `fallback_func()` invoked with no
arguments; its own arguments (`args`, of arbitrary type) are discarded. -/
def MockLimit.mocking_func {α β : Type} (m : MockLimit α) (args : β) : α × MockLimit α :=
  if m.mock_count < m.mock_count_max then
    (m.mockreturn, ⟨m.mock_count_max, m.mock_count + 1, m.mockreturn, m.fallback_func⟩)
  else
    (m.fallback_func (), m)

/-- Apply `mocking_func` once per element of `bs`, collecting the returned
values in order. -/
def MockLimit.runCalls {α β : Type} : MockLimit α → List β → List α × MockLimit α
  | m, [] => ([], m)
  | m, b :: bs =>
    let (r, m1) := m.mocking_func b
    let (rs, m2) := MockLimit.runCalls m1 bs
    (r :: rs, m2)

/-- The generator of the `test_mocking_random_string_2_of_3_times` scenario:
`"m0ck"` for exactly the first 2 calls, then the real random-string
generator (its randomness abstracted as the call count used for the seed,
which here yields `"caaa"` on call 2 and `"daaa"` on call 3). -/
def mockThenRandomGen (n : Nat) : String :=
  if n < 2 then "m0ck" else random_string n

/-! ### Basic lemmas about the store primitives -/

theorem hasShort_eq_false_iff (t : Table) (s : String) :
    hasShort t s = false ↔ ∀ e ∈ t, e.short ≠ s := by
  simp [hasShort, List.any_eq_false]

theorem hasShort_append (t1 t2 : Table) (s : String) :
    hasShort (t1 ++ t2) s = (hasShort t1 s || hasShort t2 s) := by
  simp [hasShort, List.any_append]

theorem hasShort_singleton (e : Entry) (s : String) :
    hasShort [e] s = (e.short == s) := by
  simp [hasShort]

theorem find_by_key_eq_none_of_hasShort_eq_false (t : Table) (s : String)
    (h : hasShort t s = false) : find_by_key t s = none := by
  rw [find_by_key, List.find?_eq_none]
  intro e he
  simp only [beq_iff_eq]
  exact (hasShort_eq_false_iff t s).mp h e he

theorem find_by_key_append (t1 t2 : Table) (s : String) :
    find_by_key (t1 ++ t2) s = (find_by_key t1 s).or (find_by_key t2 s) := by
  simp [find_by_key, List.find?_append]

theorem find_by_key_of_mem (t : Table) (e : Entry)
    (hu : UniqueShorts t) (he : e ∈ t) : find_by_key t e.short = some e := by
  induction t with
  | nil => cases he
  | cons a rest ih =>
    rcases List.mem_cons.mp he with rfl | hmem
    · simp [find_by_key, List.find?_cons_of_pos]
    · have hne : (a.short == e.short) = false := by
        simp only [UniqueShorts, List.map_cons, List.nodup_cons] at hu
        have : e.short ∈ List.map Entry.short rest := List.mem_map_of_mem Entry.short hmem
        simp only [beq_eq_false_iff_ne, ne_eq]
        intro hs
        exact hu.1 (hs ▸ this)
      have hu2 : UniqueShorts rest := by
        simp only [UniqueShorts, List.map_cons, List.nodup_cons] at hu
        exact hu.2
      rw [find_by_key] at *
      rw [List.find?_cons_of_neg _ (by simp [hne])]
      exact ih hu2 hmem

theorem find_by_secondary_append (t1 t2 : Table) (l : String) :
    find_by_secondary (t1 ++ t2) l = (find_by_secondary t1 l).or (find_by_secondary t2 l) := by
  simp [find_by_secondary, List.find?_append]

theorem find_by_secondary_some (t : Table) (l : String) (e : Entry)
    (h : find_by_secondary t l = some e) : e ∈ t ∧ e.long_url = l := by
  refine ⟨List.mem_of_find?_eq_some h, ?_⟩
  have := List.find?_some h
  simpa using this

theorem conditional_insert_of_hasShort (t : Table) (e : Entry)
    (h : hasShort t e.short = true) :
    conditional_insert t e = (t, InsertResult.already_exists) := by
  simp [conditional_insert, h]

theorem conditional_insert_of_fresh (t : Table) (e : Entry)
    (h : hasShort t e.short = false) :
    conditional_insert t e = (t ++ [e], InsertResult.success) := by
  simp [conditional_insert, h]

/-! ### Lemmas about the generate-and-insert loop -/

theorem saveLoop_some (gen : Nat → String) :
    ∀ (fuel : Nat) (st : EngineState) (nrm : String) (e : Entry) (st' : EngineState),
    saveLoop gen fuel st nrm = (some e, st') →
    st'.table = st.table ++ [e] ∧ e.long_url = nrm ∧ hasShort st.table e.short = false ∧
      ∃ k, e.short = gen k := by
  intro fuel
  induction fuel with
  | zero =>
    intro st nrm e st' h
    simp [saveLoop] at h
  | succ n ih =>
    intro st nrm e st' h
    rw [saveLoop] at h
    by_cases hc : hasShort st.table (gen st.genCount) = true
    · rw [show (⟨st.table, st.genCount + 1⟩ : EngineState).table = st.table from rfl,
        conditional_insert_of_hasShort st.table ⟨gen st.genCount, nrm⟩ hc] at h
      exact ih ⟨st.table, st.genCount + 1⟩ nrm e st' h
    · rw [show (⟨st.table, st.genCount + 1⟩ : EngineState).table = st.table from rfl,
        conditional_insert_of_fresh st.table ⟨gen st.genCount, nrm⟩
          (Bool.eq_false_iff.mpr hc)] at h
      obtain ⟨he, hst⟩ := Prod.mk.injEq _ _ _ _ ▸ h
      refine ⟨?_, ?_, ?_, st.genCount, ?_⟩
      · rw [← hst]
        rw [Option.some.injEq] at he
        rw [← he]
      · rw [Option.some.injEq] at he
        rw [← he]
      · rw [Option.some.injEq] at he
        rw [← he]
        exact Bool.eq_false_iff.mpr hc
      · rw [Option.some.injEq] at he
        rw [← he]

theorem save_long_url_some (gen : Nat → String) (fuel : Nat) (st : EngineState)
    (raw : String) (e : Entry) (st' : EngineState)
    (h : save_long_url gen fuel st raw = (some e, st')) :
    (find_by_secondary st.table (normalize raw) = some e ∧ st' = st ∧
       e ∈ st.table ∧ e.long_url = normalize raw) ∨
    (find_by_secondary st.table (normalize raw) = none ∧ st'.table = st.table ++ [e] ∧
       e.long_url = normalize raw ∧ hasShort st.table e.short = false ∧
       ∃ k, e.short = gen k) := by
  rw [save_long_url] at h
  cases hf : find_by_secondary st.table (normalize raw) with
  | some e0 =>
    rw [hf] at h
    obtain ⟨he, hst⟩ := Prod.mk.injEq _ _ _ _ ▸ h
    rw [Option.some.injEq] at he
    subst he
    obtain ⟨hmem, hl⟩ := find_by_secondary_some _ _ _ hf
    exact Or.inl ⟨rfl, hst.symm, hmem, hl⟩
  | none =>
    rw [hf] at h
    exact Or.inr ⟨rfl, saveLoop_some gen fuel st (normalize raw) e st' h⟩

/-! ### Preservation of the schema invariant -/

theorem conditional_insert_unique (t : Table) (e : Entry) (t' : Table) (r : InsertResult)
    (hu : UniqueShorts t) (h : conditional_insert t e = (t', r)) : UniqueShorts t' := by
  by_cases hc : hasShort t e.short = true
  · rw [conditional_insert_of_hasShort t e hc] at h
    obtain ⟨h1, _⟩ := Prod.mk.injEq _ _ _ _ ▸ h
    rw [← h1]
    exact hu
  · rw [conditional_insert_of_fresh t e (Bool.eq_false_iff.mpr hc)] at h
    obtain ⟨h1, _⟩ := Prod.mk.injEq _ _ _ _ ▸ h
    rw [← h1]
    rw [UniqueShorts, List.map_append, List.nodup_append]
    refine ⟨hu, List.nodup_singleton e.short, ?_⟩
    intro s hs1 hs2
    simp only [List.map_cons, List.map_nil, List.mem_singleton] at hs2
    obtain ⟨x, hx, hxs⟩ := List.mem_map.mp hs1
    have := (hasShort_eq_false_iff t e.short).mp (Bool.eq_false_iff.mpr hc) x hx
    rw [hxs] at this
    exact this hs2

theorem saveLoop_unique (gen : Nat → String) :
    ∀ (fuel : Nat) (st : EngineState) (nrm : String) (r : Option Entry) (st' : EngineState),
    UniqueShorts st.table → saveLoop gen fuel st nrm = (r, st') →
    UniqueShorts st'.table := by
  intro fuel
  induction fuel with
  | zero =>
    intro st nrm r st' hu h
    rw [saveLoop] at h
    obtain ⟨_, h2⟩ := Prod.mk.injEq _ _ _ _ ▸ h
    rw [← h2]
    exact hu
  | succ n ih =>
    intro st nrm r st' hu h
    rw [saveLoop] at h
    by_cases hc : hasShort st.table (gen st.genCount) = true
    · rw [show (⟨st.table, st.genCount + 1⟩ : EngineState).table = st.table from rfl,
        conditional_insert_of_hasShort st.table ⟨gen st.genCount, nrm⟩ hc] at h
      exact ih ⟨st.table, st.genCount + 1⟩ nrm r st' hu h
    · rw [show (⟨st.table, st.genCount + 1⟩ : EngineState).table = st.table from rfl,
        conditional_insert_of_fresh st.table ⟨gen st.genCount, nrm⟩
          (Bool.eq_false_iff.mpr hc)] at h
      obtain ⟨_, h2⟩ := Prod.mk.injEq _ _ _ _ ▸ h
      rw [← h2]
      exact conditional_insert_unique st.table ⟨gen st.genCount, nrm⟩ _ _ hu
        (conditional_insert_of_fresh st.table ⟨gen st.genCount, nrm⟩
          (Bool.eq_false_iff.mpr hc))

theorem save_long_url_unique (gen : Nat → String) (fuel : Nat) (st : EngineState)
    (raw : String) (r : Option Entry) (st' : EngineState)
    (hu : UniqueShorts st.table) (h : save_long_url gen fuel st raw = (r, st')) :
    UniqueShorts st'.table := by
  rw [save_long_url] at h
  cases hf : find_by_secondary st.table (normalize raw) with
  | some e0 =>
    rw [hf] at h
    obtain ⟨_, h2⟩ := Prod.mk.injEq _ _ _ _ ▸ h
    rw [← h2]
    exact hu
  | none =>
    rw [hf] at h
    exact saveLoop_unique gen fuel st (normalize raw) r st' hu h

theorem runSaves_unique (gen : Nat → String) (fuel : Nat) :
    ∀ (urls : List String) (st : EngineState), UniqueShorts st.table →
    UniqueShorts (runSaves gen fuel st urls).2.table := by
  intro urls
  induction urls with
  | nil =>
    intro st hu
    rw [runSaves]
    exact hu
  | cons u us ih =>
    intro st hu
    rw [runSaves]
    have h1 : UniqueShorts (save_long_url gen fuel st u).2.table :=
      save_long_url_unique gen fuel st u _ _ hu rfl
    exact ih (save_long_url gen fuel st u).2 h1

/-! ### Normalization strips trailing whitespace -/

theorem normalize_no_trailing_newline (s : String) :
    hasTrailingNewline (normalize s) = false := by
  rw [hasTrailingNewline, normalize]
  cases hd : List.dropWhile Char.isWhitespace (List.reverse s.data) with
  | nil => simp [hd]
  | cons c cs =>
    have hne : List.dropWhile Char.isWhitespace (List.reverse s.data) ≠ [] := by
      rw [hd]
      exact List.cons_ne_nil c cs
    have hw : Char.isWhitespace ((List.dropWhile Char.isWhitespace (List.reverse s.data)).head hne) = false :=
      List.head_dropWhile_not Char.isWhitespace (List.reverse s.data) hne
    have hhead : (List.dropWhile Char.isWhitespace (List.reverse s.data)).head hne = c := by
      simp [hd]
    rw [hhead] at hw
    have hc : c ≠ '\x0a' := by
      intro hcc
      rw [hcc] at hw
      simp [Char.isWhitespace] at hw
    simp [hd, List.getLast?_reverse, hc]

/-! ### The modelled generator produces valid short keys -/

theorem alphanum_chars_all_alphanum : ∀ c ∈ alphanum_chars, c.isAlphanum = true := by
  decide

theorem pick_isAlphanum (i : Nat) : (pick i).isAlphanum = true := by
  rw [pick]
  have hlen : alphanum_chars.length = 62 := by decide
  have hlt : i % 62 < alphanum_chars.length := by
    rw [hlen]
    exact Nat.mod_lt i (by omega)
  rw [List.getD_eq_getElem alphanum_chars 'a' hlt]
  exact alphanum_chars_all_alphanum _ (alphanum_chars.getElem_mem hlt)

theorem validShort_random_string (seed : Nat) : validShort (random_string seed) = true := by
  rw [validShort, random_string]
  simp only [String.data]
  simp [pick_isAlphanum]

/-! ### Lemmas about the migration copy loop -/

theorem migrate_items_ok :
    ∀ (items : List Entry) (dest : Table),
    List.Nodup (List.map Entry.short items) →
    (∀ e ∈ items, hasShort dest e.short = false) →
    migrate_items items dest = Except.ok (dest ++ items) := by
  intro items
  induction items with
  | nil =>
    intro dest _ _
    simp [migrate_items]
  | cons i rest ih =>
    intro dest hnd hfresh
    simp only [List.map_cons, List.nodup_cons] at hnd
    have hfresh2 : ∀ e ∈ rest, hasShort (dest ++ [i]) e.short = false := by
      intro e he
      rw [hasShort_append, Bool.or_eq_false_iff]
      refine ⟨hfresh e (List.mem_cons_of_mem i he), ?_⟩
      rw [hasShort_singleton, beq_eq_false_iff_ne]
      intro hs
      exact hnd.1 (hs ▸ List.mem_map_of_mem Entry.short he)
    rw [migrate_items, conditional_insert_of_fresh dest i (hfresh i (List.mem_cons_self i rest))]
    show migrate_items rest (dest ++ [i]) = Except.ok (dest ++ i :: rest)
    rw [ih (dest ++ [i]) hnd.2 hfresh2, ← List.append_cons]

theorem migrate_items_err :
    ∀ (pre : List Entry) (dest : Table) (d : Entry) (post : List Entry),
    List.Nodup (List.map Entry.short pre) →
    (∀ e ∈ pre, hasShort dest e.short = false) →
    hasShort (dest ++ pre) d.short = true →
    migrate_items (pre ++ d :: post) dest = Except.error d := by
  intro pre
  induction pre with
  | nil =>
    intro dest d post _ _ hdup
    rw [List.append_nil] at hdup
    rw [List.nil_append, migrate_items, conditional_insert_of_hasShort dest d hdup]
  | cons a pre1 ih =>
    intro dest d post hnd hfresh hdup
    simp only [List.map_cons, List.nodup_cons] at hnd
    have hfresh2 : ∀ e ∈ pre1, hasShort (dest ++ [a]) e.short = false := by
      intro e he
      rw [hasShort_append, Bool.or_eq_false_iff]
      refine ⟨hfresh e (List.mem_cons_of_mem a he), ?_⟩
      rw [hasShort_singleton, beq_eq_false_iff_ne]
      intro hs
      exact hnd.1 (hs ▸ List.mem_map_of_mem Entry.short he)
    have hdup2 : hasShort (dest ++ [a] ++ pre1) d.short = true := by
      rw [← List.append_cons]
      exact hdup
    rw [List.cons_append, migrate_items,
      conditional_insert_of_fresh dest a (hfresh a (List.mem_cons_self a pre1))]
    show migrate_items (pre1 ++ d :: post) (dest ++ [a]) = Except.error d
    exact ih (dest ++ [a]) d post hnd.2 hfresh2 hdup2

/-! ### The MockLimit call sequence -/

theorem runCalls_cons {α β : Type} (m : MockLimit α) (b : β) (bs : List β) :
    MockLimit.runCalls m (b :: bs) =
      ((m.mocking_func b).1 :: (MockLimit.runCalls (m.mocking_func b).2 bs).1,
        (MockLimit.runCalls (m.mocking_func b).2 bs).2) := rfl

theorem runCalls_spec {α β : Type} (mx : Nat) (mr : α) (fb : Unit → α) :
    ∀ (bs : List β) (c : Nat), c ≤ mx →
    MockLimit.runCalls (⟨mx, c, mr, fb⟩ : MockLimit α) bs =
      (List.map (fun i => if c + i < mx then mr else fb ()) (List.range bs.length),
       ⟨mx, min (c + bs.length) mx, mr, fb⟩) := by
  intro bs
  induction bs with
  | nil =>
    intro c hc
    rw [MockLimit.runCalls]
    simp [Nat.min_eq_left hc]
  | cons b bs1 ih =>
    intro c hc
    rw [runCalls_cons]
    by_cases hlt : c < mx
    · rw [show (MockLimit.mocking_func (⟨mx, c, mr, fb⟩ : MockLimit α) b) =
          (mr, (⟨mx, c + 1, mr, fb⟩ : MockLimit α)) from by
            simp [MockLimit.mocking_func, hlt]]
      rw [ih (c + 1) hlt]
      simp only [List.length_cons, List.range_succ_eq_map, List.map_cons, List.map_map]
      rw [Prod.mk.injEq]
      constructor
      · rw [List.cons.injEq]
        constructor
        · simp [hlt]
        · apply List.map_congr_left
          intro a _
          simp only [Function.comp_apply, Nat.succ_eq_add_one]
          have : c + 1 + a = c + (a + 1) := by omega
          rw [this]
      · have : c + 1 + bs1.length = c + (bs1.length + 1) := by omega
        rw [this]
    · rw [show (MockLimit.mocking_func (⟨mx, c, mr, fb⟩ : MockLimit α) b) =
          (fb (), (⟨mx, c, mr, fb⟩ : MockLimit α)) from by
            simp [MockLimit.mocking_func, hlt]]
      rw [ih c hc]
      simp only [List.length_cons, List.range_succ_eq_map, List.map_cons, List.map_map]
      rw [Prod.mk.injEq]
      constructor
      · rw [List.cons.injEq]
        constructor
        · simp [hlt]
        · apply List.map_congr_left
          intro a _
          simp only [Function.comp_apply, Nat.succ_eq_add_one]
          have h1 : ¬ c + a < mx := by omega
          have h2 : ¬ c + (a + 1) < mx := by omega
          simp [h1, h2]
      · have hce : c = mx := by omega
        subst hce
        rw [MockLimit.mk.injEq]
        refine ⟨rfl, ?_, rfl, rfl⟩
        rw [Nat.min_eq_right (by omega), Nat.min_eq_right (by omega)]

/-! ### Claim theorems -/

/-- C1: every state reachable from the empty table by a sequence of
`save_long_url` calls (equal or distinct long URLs, any generator, any
retry ceiling) has at most one entry per `short` key — the shorts are
pairwise distinct — and hence no `short` key is associated with two
different stored `long_url` values. -/
theorem save_long_url_reachable_unique_shorts (gen : Nat → String) (fuel : Nat)
    (urls : List String) :
    UniqueShorts (runSaves gen fuel initState urls).2.table ∧
    ∀ e1 ∈ (runSaves gen fuel initState urls).2.table,
      ∀ e2 ∈ (runSaves gen fuel initState urls).2.table,
      e1.short = e2.short → e1.long_url = e2.long_url := by
  have hu : UniqueShorts (runSaves gen fuel initState urls).2.table :=
    runSaves_unique gen fuel urls initState (by simp [initState, UniqueShorts])
  refine ⟨hu, ?_⟩
  intro e1 h1 e2 h2 hs
  have he12 : e1 = e2 := List.inj_on_of_nodup_map hu h1 h2 hs
  rw [he12]

/-- Witness for C1 at a concrete run: one save with a fixed generator. -/
theorem save_long_url_reachable_unique_shorts_witness :
    UniqueShorts (runSaves (fun _ => "abcd") 3 initState ["u"]).2.table ∧
    (⟨"abcd", "u"⟩ : Entry).long_url = (⟨"abcd", "u"⟩ : Entry).long_url := by
  refine ⟨(save_long_url_reachable_unique_shorts (fun _ => "abcd") 3 ["u"]).1, ?_⟩
  exact (save_long_url_reachable_unique_shorts (fun _ => "abcd") 3 ["u"]).2
    ⟨"abcd", "u"⟩ (by decide) ⟨"abcd", "u"⟩ (by decide) rfl

/-- C2: `save_long_url` is idempotent — if a save of `u` returned entry `e`
and left state `st'`, saving `u` again returns the same entry `e` (hence
the same `short`) and leaves the state unchanged. -/
theorem save_long_url_idempotent (gen : Nat → String) (fuel : Nat) (st : EngineState)
    (u : String) (e : Entry) (st' : EngineState)
    (h : save_long_url gen fuel st u = (some e, st')) :
    save_long_url gen fuel st' u = (some e, st') := by
  rcases save_long_url_some gen fuel st u e st' h with ⟨hf, hst, _, _⟩ | ⟨hf, htab, hlong, _, _⟩
  · subst hst
    rw [save_long_url, hf]
  · rw [save_long_url]
    have hfind : find_by_secondary st'.table (normalize u) = some e := by
      rw [htab, find_by_secondary_append, hf, Option.none_or, find_by_secondary,
        List.find?_cons_of_pos _ (by simp [hlong])]
    rw [hfind]

/-- Witness for C2: the second save of `"u"` on the state left by the
first save returns the same entry and state. -/
theorem save_long_url_idempotent_witness :
    save_long_url (fun _ => "abcd") 1 ⟨[⟨"abcd", "u"⟩], 1⟩ "u" =
      (some ⟨"abcd", "u"⟩, ⟨[⟨"abcd", "u"⟩], 1⟩) :=
  save_long_url_idempotent (fun _ => "abcd") 1 initState "u"
    ⟨"abcd", "u"⟩ ⟨[⟨"abcd", "u"⟩], 1⟩ (by decide)

/-- C3: round-trip lookup correctness — if saving `u` returned an entry
with short key `s` (on a table satisfying the schema invariant), then
`get_long_from_short s` returns the normalized `u` and
`get_short_of_long u` returns `s`. -/
theorem save_long_url_roundtrip (gen : Nat → String) (fuel : Nat) (st : EngineState)
    (u : String) (e : Entry) (st' : EngineState) (hu : UniqueShorts st.table)
    (h : save_long_url gen fuel st u = (some e, st')) :
    get_long_from_short st'.table e.short = some (normalize u) ∧
    get_short_of_long st'.table u = some e.short := by
  rcases save_long_url_some gen fuel st u e st' h with
    ⟨hf, hst, hmem, hlong⟩ | ⟨hf, htab, hlong, hfresh, _⟩
  · subst hst
    constructor
    · rw [get_long_from_short, find_by_key_of_mem _ e hu hmem,
        Option.map_some', hlong]
    · rw [get_short_of_long, hf, Option.map_some']
  · constructor
    · rw [get_long_from_short, htab, find_by_key_append,
        find_by_key_eq_none_of_hasShort_eq_false st.table e.short hfresh, Option.none_or,
        find_by_key, List.find?_cons_of_pos _ (by simp), Option.map_some', hlong]
    · rw [get_short_of_long, htab, find_by_secondary_append, hf, Option.none_or,
        find_by_secondary, List.find?_cons_of_pos _ (by simp [hlong]), Option.map_some']

/-- Witness for C3 at a concrete save on the empty table. -/
theorem save_long_url_roundtrip_witness :
    get_long_from_short (⟨[⟨"abcd", "u"⟩], 1⟩ : EngineState).table
        (⟨"abcd", "u"⟩ : Entry).short = some (normalize "u") ∧
    get_short_of_long (⟨[⟨"abcd", "u"⟩], 1⟩ : EngineState).table "u" =
        some (⟨"abcd", "u"⟩ : Entry).short :=
  save_long_url_roundtrip (fun _ => "abcd") 1 initState "u"
    ⟨"abcd", "u"⟩ ⟨[⟨"abcd", "u"⟩], 1⟩ (by decide) (by decide)

/-- C4: normalization — every saved (stored and returned) `long_url` is
the input with trailing newline/whitespace stripped, hence carries no
trailing newline; in particular saving `"http://example.com\n"` stores
`long_url` `"http://example.com"`. -/
theorem save_long_url_normalizes :
    (∀ (gen : Nat → String) (fuel : Nat) (st : EngineState) (raw : String)
        (e : Entry) (st' : EngineState),
        save_long_url gen fuel st raw = (some e, st') →
        e.long_url = normalize raw ∧ hasTrailingNewline e.long_url = false) ∧
    normalize "http://example.com\x0a" = "http://example.com" := by
  constructor
  · intro gen fuel st raw e st' h
    have hlong : e.long_url = normalize raw := by
      rcases save_long_url_some gen fuel st raw e st' h with
        ⟨_, _, _, hl⟩ | ⟨_, _, hl, _, _⟩
      · exact hl
      · exact hl
    rw [hlong]
    exact ⟨rfl, normalize_no_trailing_newline raw⟩
  · decide

/-- Witness for C4 at a concrete save on the empty table. -/
theorem save_long_url_normalizes_witness :
    (⟨"abcd", "u"⟩ : Entry).long_url = normalize "u" ∧
    hasTrailingNewline (⟨"abcd", "u"⟩ : Entry).long_url = false :=
  save_long_url_normalizes.1 (fun _ => "abcd") 1 initState "u"
    ⟨"abcd", "u"⟩ ⟨[⟨"abcd", "u"⟩], 1⟩ (by decide)

/-- C5: evaluation of the modelled save protocol on the scenario of
`test_mocking_random_string_2_of_3_times` — a generator returning `"m0ck"`
for exactly its first 2 calls, then the real random-string generator.
The spec's collision-retry loop (§4.2 step 3c) rejects the repeated
candidate `"m0ck"` when the second URL is saved, so the second response's
`short` is the first fallback value `"caaa"`, not `"m0ck"` as the claim
(and the repository's test) asserts. -/
theorem mock_scenario_second_short_not_mock :
    (runSaves mockThenRandomGen 10 initState
        ["http://example1.com", "http://example2.com", "http://example3.com"]).1 =
      [some ⟨"m0ck", "http://example1.com"⟩,
       some ⟨"caaa", "http://example2.com"⟩,
       some ⟨"daaa", "http://example3.com"⟩] ∧
    ("caaa" == "m0ck") = false := by
  constructor
  · decide
  · decide

/-- C6: with the modelled alphanumeric generator `random_string` (under
any randomness source `f`) and a table whose shorts are all valid, the
`short` returned by `save_long_url` is a string of exactly 4 characters
drawn from the alphanumeric alphabet. -/
theorem save_long_url_short_is_4_alphanum (f : Nat → Nat) (fuel : Nat)
    (st : EngineState) (raw : String) (e : Entry) (st' : EngineState)
    (hv : ∀ x ∈ st.table, validShort x.short = true)
    (h : save_long_url (fun n => random_string (f n)) fuel st raw = (some e, st')) :
    validShort e.short = true := by
  rcases save_long_url_some _ fuel st raw e st' h with
    ⟨_, _, hmem, _⟩ | ⟨_, _, _, _, k, hk⟩
  · exact hv e hmem
  · rw [hk]
    exact validShort_random_string (f k)

/-- Witness for C6 at a concrete save on the empty table. -/
theorem save_long_url_short_is_4_alphanum_witness :
    validShort (⟨"aaaa", "u"⟩ : Entry).short = true :=
  save_long_url_short_is_4_alphanum (fun n => n) 1 initState "u"
    ⟨"aaaa", "u"⟩ ⟨[⟨"aaaa", "u"⟩], 1⟩
    (by intro x hx; simp [initState] at hx) (by decide)

/-- C7: not-found behavior — for every key absent from the table,
`get_long_from_short` returns the not-found signal `none` (not an error
and not a fabricated value); in particular `"zzzz"` on the empty table. -/
theorem get_long_from_short_not_found :
    (∀ (t : Table) (s : String), hasShort t s = false →
        get_long_from_short t s = none) ∧
    get_long_from_short ([] : Table) "zzzz" = none := by
  constructor
  · intro t s h
    rw [get_long_from_short, find_by_key_eq_none_of_hasShort_eq_false t s h,
      Option.map_none']
  · rfl

/-- Witness for C7 on a non-empty table and an absent key. -/
theorem get_long_from_short_not_found_witness :
    get_long_from_short [(⟨"abcd", "u"⟩ : Entry)] "zzzz" = none :=
  get_long_from_short_not_found.1 [⟨"abcd", "u"⟩] "zzzz" (by decide)

/-- C8: frame/atomicity of the conditional write — whenever an entry with
the same `short` key already exists, the conditional insert reports
`already_exists` and leaves the table, in particular the colliding entry,
completely unchanged: no field is overwritten and no partial write
remains. -/
theorem conditional_insert_collision_frame (t : Table) (e : Entry)
    (hc : hasShort t e.short = true) :
    conditional_insert t e = (t, InsertResult.already_exists) :=
  conditional_insert_of_hasShort t e hc

/-- Witness for C8: inserting a colliding entry leaves the table as it
was. -/
theorem conditional_insert_collision_frame_witness :
    conditional_insert [(⟨"abcd", "u"⟩ : Entry)] ⟨"abcd", "v"⟩ =
      ([⟨"abcd", "u"⟩], InsertResult.already_exists) :=
  conditional_insert_collision_frame [⟨"abcd", "u"⟩] ⟨"abcd", "v"⟩ (by decide)

/-- C9 counterexample: on an intermediate table holding two items with the
same `short` key, the migration's copy loop hits the failed condition at
the duplicate and the uncaught exception aborts the run — the duplicate is
not skipped, and the item after it is never copied (the intermediate
table itself is returned untouched). -/
theorem migration_duplicate_is_fatal :
    run_migration [⟨"aaaa", "u1"⟩, ⟨"aaaa", "u2"⟩, ⟨"bbbb", "u3"⟩] =
      (Except.error ⟨"aaaa", "u2"⟩,
       [⟨"aaaa", "u1"⟩, ⟨"aaaa", "u2"⟩, ⟨"bbbb", "u3"⟩]) := by
  rfl

/-- C9 (amended): the migration copies every item from the intermediate
table into the freshly created single-key table of the original name via
conditional insert when the items' `short` keys are pairwise distinct, and
it never deletes the intermediate table; an item whose `short` key already
exists in the destination raises the failed condition as a fatal error
carrying that item (aborting the copy), rather than being skipped. -/
theorem migration_copies_and_aborts_on_duplicate :
    (∀ inter : Table, List.Nodup (List.map Entry.short inter) →
        run_migration inter = (Except.ok inter, inter)) ∧
    (∀ (pre : Table) (d : Entry) (post : Table),
        List.Nodup (List.map Entry.short pre) → hasShort pre d.short = true →
        run_migration (pre ++ d :: post) = (Except.error d, pre ++ d :: post)) := by
  constructor
  · intro inter hnd
    rw [run_migration, migrate_items_ok inter [] hnd (fun e _ => rfl), List.nil_append]
  · intro pre d post hnd hdup
    rw [run_migration,
      migrate_items_err pre [] d post hnd (fun e _ => rfl) (by simpa using hdup)]

/-- Witness for C9 (amended) at concrete intermediate tables. -/
theorem migration_copies_and_aborts_on_duplicate_witness :
    run_migration [(⟨"aaaa", "u1"⟩ : Entry), ⟨"bbbb", "u2"⟩] =
      (Except.ok [⟨"aaaa", "u1"⟩, ⟨"bbbb", "u2"⟩],
       [⟨"aaaa", "u1"⟩, ⟨"bbbb", "u2"⟩]) ∧
    run_migration ([⟨"aaaa", "u1"⟩] ++ (⟨"aaaa", "u2"⟩ : Entry) :: [⟨"bbbb", "u3"⟩]) =
      (Except.error ⟨"aaaa", "u2"⟩,
       [⟨"aaaa", "u1"⟩] ++ (⟨"aaaa", "u2"⟩ : Entry) :: [⟨"bbbb", "u3"⟩]) :=
  ⟨migration_copies_and_aborts_on_duplicate.1 [⟨"aaaa", "u1"⟩, ⟨"bbbb", "u2"⟩] (by decide),
   migration_copies_and_aborts_on_duplicate.2 [⟨"aaaa", "u1"⟩] ⟨"aaaa", "u2"⟩
     [⟨"bbbb", "u3"⟩] (by decide) (by decide)⟩

/-- C10: `MockLimit` — from a fresh instance, the i-th call of
`mocking_func` (0-based; its arguments, of arbitrary type, are discarded)
returns `mockreturn` exactly when `i < mock_count_max` and `fallback_func`
invoked on no arguments otherwise, and the final `mock_count` is the
minimum of the call count and `mock_count_max`, so it never exceeds
`mock_count_max`. -/
theorem mockLimit_behavior {α β : Type} (mr : α) (mx : Nat) (fb : Unit → α)
    (bs : List β) :
    (MockLimit.runCalls (⟨mx, 0, mr, fb⟩ : MockLimit α) bs).1 =
      List.map (fun i => if i < mx then mr else fb ()) (List.range bs.length) ∧
    (MockLimit.runCalls (⟨mx, 0, mr, fb⟩ : MockLimit α) bs).2.mock_count =
      min bs.length mx ∧
    (MockLimit.runCalls (⟨mx, 0, mr, fb⟩ : MockLimit α) bs).2.mock_count ≤ mx := by
  rw [runCalls_spec mx mr fb bs 0 (Nat.zero_le mx)]
  simp only [Nat.zero_add]
  exact ⟨trivial, trivial, Nat.min_le_right _ _⟩

end Short
